import Mathlib

/-!
Verification of the Strata distributed-training coordinator core.

The Rust sources are shallowly embedded:
* `DashMap`/`HashMap` values are association lists whose insert overwrites
  the previous binding for a key (the binding is re-consed to the front);
* `BTreeMap` values are association lists sorted by key;
* `u64`/`u32`/`usize` arithmetic is `Nat`, with an explicit `% 2^w`
  wherever the Rust code can truncate or wrap;
* the ChaCha8 generator that feeds `rand`'s Fisher-Yates shuffle
  (`rand::seq::SliceRandom::shuffle`, an external crate) is abstracted as a
  draw stream `f : Nat → Nat`; the shuffle itself (descending swaps with
  `gen_range(0..=i)`, i.e. swap target `f i % (i+1)`) is embedded exactly,
  so theorems quantified over `f` cover the concrete generator;
* fallible operations return `Except`/`Option`.
-/

namespace Strata

/-! ### Association-list maps (embedding of DashMap / HashMap) -/

/-- Lookup in an association list (`DashMap::get`). -/
def lookupKey (k : String) : List (String × α) → Option α
  | [] => none
  | (k', v) :: rest => if k' = k then some v else lookupKey k rest

/-- Remove every binding of a key (`DashMap::remove`). -/
def eraseKey (k : String) (m : List (String × α)) : List (String × α) :=
  m.filter (fun p => p.1 ≠ k)

/-- Insert, overwriting any previous binding (`DashMap::insert`). -/
def insertKey (k : String) (v : α) (m : List (String × α)) : List (String × α) :=
  (k, v) :: eraseKey k m

/-- The keys currently bound. -/
def keysOf (m : List (String × α)) : List String := m.map Prod.fst

/-- Erase a set of keys in sequence (proof device for fold reasoning). -/
def eraseKeys : List String → List (String × α) → List (String × α)
  | [], m => m
  | k :: ks, m => eraseKeys ks (eraseKey k m)

/-! ### Epoch shuffler (crates/data-shard/src/epoch.rs) -/

/-- One slice swap, `<[u64]>::swap i j` (in-bounds positions exchanged). -/
def swapL (l : List α) (i j : Nat) : List α :=
  if h : i < l.length ∧ j < l.length then
    (l.set i (l.get ⟨j, h.2⟩)).set j (l.get ⟨i, h.1⟩)
  else l

/-- The descending Fisher-Yates loop of `rand`'s `shuffle`:
`for i in (1..len).rev() { swap(i, gen_range(0..=i)) }`, with the
generator's draw at step `i` abstracted as `f i` (reduced mod `i+1`,
which is the guarantee `gen_range(0..=i)` provides). -/
def fyAux (f : Nat → Nat) : Nat → List α → List α
  | 0, l => l
  | i + 1, l => fyAux f i (swapL l (i + 1) (f (i + 1) % (i + 2)))

/-- `shards.shuffle(&mut rng)` on a vector `l`. -/
def fisherYates (f : Nat → Nat) (l : List α) : List α :=
  fyAux f (l.length - 1) l

/-- `EpochCoordinator::get_shuffled_shards`: collect `0..total_shards`
and shuffle it with the epoch-seeded generator (abstracted as `f`).
The memoization cache does not change the returned value. -/
def get_shuffled_shards (f : Nat → Nat) (totalShards : Nat) : List Nat :=
  fisherYates f (List.range totalShards)

/-- `EpochCoordinator::get_worker_shards`: the round-robin cut
`(idx as u32) % total_workers == worker_rank` over the shuffled order.
The `usize → u32` cast is the explicit `% 2^32`. -/
def get_worker_shards (f : Nat → Nat) (totalShards workerRank totalWorkers : Nat) :
    List Nat :=
  if totalWorkers = 0 then []
  else
    ((get_shuffled_shards f totalShards).enum.filterMap
      (fun p => if p.1 % 4294967296 % totalWorkers = workerRank then some p.2 else none))

/-- Selection of the elements of `l` whose position (counted from `k`)
satisfies `φ pos = r`; recursion-friendly form of the round-robin filter. -/
def rrSel (φ : Nat → Nat) (r : Nat) : Nat → List α → List α
  | _, [] => []
  | k, a :: l => if φ k = r then a :: rrSel φ r (k + 1) l else rrSel φ r (k + 1) l

/-! ### Barriers (crates/coordinator/src/service.rs, `wait_barrier`) -/

/-- What one `wait_barrier` caller eventually observes. -/
structure BarrierOutcome where
  released : Bool
  participants : Nat
  arrivalOrder : Nat
deriving DecidableEq, Repr

/-- `BarrierState`: expected participants (world size snapshotted at
creation), arrived counter, and the suspended waiters. A waiter is
recorded with its own arrival order, which its response echoes. -/
structure BarrierSt where
  expected : Nat
  arrived : Nat
  waiters : List (Nat × Nat)
deriving DecidableEq, Repr

/-- One `wait_barrier` arrival by `caller`. `none` means no record exists
for this barrier id (the entry is created on demand, snapshotting
`expected := worldSize`). Returns the new record (`none` once removed) and
the outcomes delivered now: on the releasing arrival, one outcome per
drained waiter (`participants` = the releaser's `arrival_order`) plus the
releaser's own; otherwise the caller suspends and nothing is delivered. -/
def waitBarrierStep (st : Option BarrierSt) (worldSize caller : Nat) :
    Option BarrierSt × List (Nat × BarrierOutcome) :=
  let b := match st with
    | some b => b
    | none => ⟨worldSize, 0, []⟩
  let order := b.arrived + 1
  if b.expected ≤ order then
    (none,
      b.waiters.map (fun w => (w.1, ⟨true, order, w.2⟩)) ++
        [(caller, ⟨true, order, order⟩)])
  else
    (some ⟨b.expected, order, b.waiters ++ [(caller, order)]⟩, [])

/-- A sequence of arrivals on one barrier id, in atomic-increment order. -/
def runBarrier (st : Option BarrierSt) (worldSize : Nat) :
    List Nat → Option BarrierSt × List (Nat × BarrierOutcome)
  | [] => (st, [])
  | c :: cs =>
    let p := waitBarrierStep st worldSize c
    let q := runBarrier p.1 worldSize cs
    (q.1, p.2 ++ q.2)

/-- The waiter records accumulated by suspended arrivals `cs` when
`a` arrivals happened before them. -/
def waitersFrom : List Nat → Nat → List (Nat × Nat)
  | [], _ => []
  | c :: cs, a => (c, a + 1) :: waitersFrom cs (a + 1)

/-! ### Worker registry (crates/runtime-core/src/worker.rs) -/

/-- `WorkerState` of runtime-core. -/
inductive WorkerState
  | Initializing
  | Idle
  | LoadingData
  | Training
  | Checkpointing
  | Recovering
  | Error
  | Disconnecting
  | Dead
deriving DecidableEq, Repr

/-- The fields of `WorkerInfo` that registry operations read or write
(rank, state, last-heartbeat instant; timestamps are abstract `Nat`
instants). -/
structure WorkerRec where
  rank : Nat
  state : WorkerState
  lastHeartbeat : Nat
deriving DecidableEq, Repr

/-- `WorkerRegistry`: worker map, monotone rank counter, capacity. -/
structure WorkerRegistry where
  workers : List (String × WorkerRec)
  rankCounter : Nat
  maxWorkers : Nat
deriving DecidableEq, Repr

/-- `WorkerRegistry::new`. -/
def WorkerRegistry.new (maxWorkers : Nat) : WorkerRegistry :=
  ⟨[], 0, maxWorkers⟩

/-- Which registry operation performed a state change (heartbeats carry
the state the worker reported). -/
inductive TransKind
  | reg
  | hb (reported : WorkerState)
  | sweep
deriving DecidableEq, Repr

/-- Registry operations, each with the clock instant at which it runs. -/
inductive RegOp
  | register (id : String) (now : Nat)
  | deregister (id : String)
  | heartbeat (id : String) (st : WorkerState) (now : Nat)
  | checkDead (now timeout : Nat)
deriving Repr

/-- One registry operation; also returns the `(kind, old, new)` state
changes it performed.
* `register`: rejected at capacity or for a duplicate id; otherwise the
  worker enters with `rank = rank_counter.fetch_add(1)` and state `Idle`
  (`WorkerInfo::new` starts it at `Initializing`).
* `deregister`: removes the binding (no rank renumbering happens here).
* `heartbeat`: unknown id fails; otherwise `last_heartbeat := now` and
  the state is set to the reported state, unconditionally.
* `checkDead`: every worker with `now − last_heartbeat > timeout` and
  state ≠ `Dead` is set to `Dead`. -/
def applyRegOp (r : WorkerRegistry) :
    RegOp → WorkerRegistry × List (TransKind × WorkerState × WorkerState)
  | .register id now =>
    if r.maxWorkers ≤ r.workers.length then (r, [])
    else if (lookupKey id r.workers).isSome then (r, [])
    else
      ({ r with
          workers := insertKey id ⟨r.rankCounter, .Idle, now⟩ r.workers,
          rankCounter := r.rankCounter + 1 },
        [(.reg, .Initializing, .Idle)])
  | .deregister id =>
    ({ r with workers := eraseKey id r.workers }, [])
  | .heartbeat id st now =>
    match lookupKey id r.workers with
    | none => (r, [])
    | some w =>
      ({ r with workers := insertKey id ⟨w.rank, st, now⟩ r.workers },
        [(.hb st, w.state, st)])
  | .checkDead now timeout =>
    ({ r with
        workers := r.workers.map (fun p =>
          if timeout < now - p.2.lastHeartbeat ∧ p.2.state ≠ .Dead then
            (p.1, ⟨p.2.rank, .Dead, p.2.lastHeartbeat⟩)
          else p) },
      r.workers.filterMap (fun p =>
        if timeout < now - p.2.lastHeartbeat ∧ p.2.state ≠ .Dead then
          some (.sweep, p.2.state, .Dead)
        else none))

/-- A sequence of registry operations, collecting the state changes. -/
def runRegistry (r : WorkerRegistry) :
    List RegOp → WorkerRegistry × List (TransKind × WorkerState × WorkerState)
  | [] => (r, [])
  | op :: ops =>
    let p := applyRegOp r op
    let q := runRegistry p.1 ops
    (q.1, p.2 ++ q.2)

/-- The forward-edge relation of spec §4.4, as the claim states it
(stated from the spec wording, to be compared with the code's behavior). -/
def specAllowedEdge : WorkerState → WorkerState → Bool
  | _, .Error => true
  | _, .Dead => true
  | _, .Recovering => true
  | .Initializing, .Idle => true
  | .Idle, .LoadingData | .Idle, .Training | .Idle, .Checkpointing
  | .Idle, .Disconnecting => true
  | .LoadingData, .Training => true
  | .Training, .LoadingData | .Training, .Checkpointing
  | .Training, .Disconnecting => true
  | .Checkpointing, .Training => true
  | _, _ => false

/-- Ranks of the registered workers form a dense permutation of
`[0, worldSize)`. -/
def ranksDense (w : List (String × WorkerRec)) : Prop :=
  List.Perm (w.map (fun p => p.2.rank)) (List.range w.length)

instance (w : List (String × WorkerRec)) : Decidable (ranksDense w) := by
  unfold ranksDense
  infer_instance

/-! ### Consistent hash ring (crates/data-shard/src/consistent_hash.rs)

The `fnv` crate's 64-bit FNV-1a hasher; Rust's `impl Hash for str`
feeds the UTF-8 bytes of the string followed by a `0xff` terminator
byte into the hasher. -/

/-- FNV-1a 64-bit offset basis. -/
def fnvOffset : Nat := 0xcbf29ce484222325

/-- FNV-1a 64-bit prime. -/
def fnvPrime : Nat := 0x100000001b3

/-- One FNV-1a byte step on a 64-bit state. -/
def fnv1aStep (h b : Nat) : Nat := ((h ^^^ b) * fnvPrime) % 18446744073709551616

/-- FNV-1a over a byte sequence. -/
def fnv1a (bytes : List Nat) : Nat := bytes.foldl fnv1aStep fnvOffset

/-- UTF-8 encoding of one scalar value. -/
def utf8Bytes (c : Char) : List Nat :=
  let n := c.toNat
  if n < 0x80 then [n]
  else if n < 0x800 then
    [0xC0 ||| (n >>> 6), 0x80 ||| (n &&& 0x3F)]
  else if n < 0x10000 then
    [0xE0 ||| (n >>> 12), 0x80 ||| ((n >>> 6) &&& 0x3F), 0x80 ||| (n &&& 0x3F)]
  else
    [0xF0 ||| (n >>> 18), 0x80 ||| ((n >>> 12) &&& 0x3F),
      0x80 ||| ((n >>> 6) &&& 0x3F), 0x80 ||| (n &&& 0x3F)]

/-- The UTF-8 bytes of a string. -/
def strBytes (s : String) : List Nat := s.data.flatMap utf8Bytes

/-- `ConsistentHash::hash` on a `str`/`String` key: FNV-1a over the
UTF-8 bytes plus the `0xff` terminator `Hash for str` appends. -/
def rustStrHash (s : String) : Nat := fnv1a (strBytes s ++ [0xff])

/-- `DEFAULT_VIRTUAL_NODES`. -/
def defaultVirtualNodes : Nat := 150

/-- `BTreeMap<u64, String>::insert` on the ascending-by-hash entry list. -/
def insertRing (h : Nat) (node : String) : List (Nat × String) → List (Nat × String)
  | [] => [(h, node)]
  | (h', n') :: rest =>
    if h < h' then (h, node) :: (h', n') :: rest
    else if h = h' then (h, node) :: rest
    else (h', n') :: insertRing h node rest

/-- `BTreeMap::remove` of one hash key. -/
def removeRingKey (h : Nat) (ring : List (Nat × String)) : List (Nat × String) :=
  ring.filter (fun e => e.1 ≠ h)

/-! ### Shard manager (crates/data-shard/src/shard_manager.rs) -/

/-- `DatasetMetadata` (runtime-core types); the free-form metadata map is
not read by any embedded operation and is omitted. -/
structure DatasetMetadata where
  id : String
  path : String
  format : String
  totalSamples : Nat
  totalShards : Nat
  shardSize : Nat
  shuffle : Bool
  seed : Nat
deriving DecidableEq, Repr

/-- `ShardAssignment` (runtime-core types). -/
structure ShardAssignment where
  datasetId : String
  shardId : Nat
  totalShards : Nat
  startIndex : Nat
  endIndex : Nat
  filePaths : List String
  epoch : Nat
deriving DecidableEq, Repr

/-- `ShardManager` together with the `ConsistentHash` ring it owns.
`ringEntries`/`ringNodes` are the ring's `BTreeMap` and node list;
`activeWorkers` is the key set of the `active_workers` map (the
per-worker `WorkerState` payload of that map is not read by any claim);
`workerRanks` is the `worker_ranks` map. The epoch coordinator's mutable
pieces (epoch counters, shuffle cache) do not affect the value of
`get_shuffled_shards`, whose generator is abstracted as a stream. -/
structure ShardManager where
  datasets : List (String × DatasetMetadata)
  ringEntries : List (Nat × String)
  ringNodes : List String
  activeWorkers : List String
  workerRanks : List (String × Nat)
deriving DecidableEq, Repr

/-- `ShardManager::new` (with an empty ring). -/
def ShardManager.empty : ShardManager := ⟨[], [], [], [], []⟩

/-- `ConsistentHash::add_node`: a no-op when the node is present,
otherwise insert the 150 virtual entries `hash(node ++ ":" ++ i)` and
record the node. -/
def add_node (nodeId : String) (sm : ShardManager) : ShardManager :=
  if nodeId ∈ sm.ringNodes then sm
  else
    { sm with
        ringEntries := (List.range defaultVirtualNodes).foldl
          (fun rg i => insertRing (rustStrHash (nodeId ++ ":" ++ toString i)) nodeId rg)
          sm.ringEntries,
        ringNodes := sm.ringNodes ++ [nodeId] }

/-- `ConsistentHash::remove_node`. -/
def remove_node (nodeId : String) (sm : ShardManager) : ShardManager :=
  { sm with
      ringEntries := (List.range defaultVirtualNodes).foldl
        (fun rg i => removeRingKey (rustStrHash (nodeId ++ ":" ++ toString i)) rg)
        sm.ringEntries,
      ringNodes := sm.ringNodes.filter (fun n => n ≠ nodeId) }

/-- `ConsistentHash::get_node`: clockwise search for the first entry with
hash ≥ the key's hash, wrapping to the lowest entry. -/
def get_node (sm : ShardManager) (key : String) : Option String :=
  if sm.ringEntries.isEmpty then none
  else
    let h := rustStrHash key
    match sm.ringEntries.find? (fun e => h ≤ e.1) with
    | some e => some e.2
    | none => sm.ringEntries.head?.map (fun e => e.2)

/-- `ConsistentHash::get_node_for_shard`. -/
def get_node_for_shard (sm : ShardManager) (datasetId : String) (shardId : Nat) :
    Option String :=
  get_node sm (datasetId ++ ":" ++ toString shardId)

/-- `ConsistentHash::get_shards_for_node`. -/
def get_shards_for_node (sm : ShardManager) (nodeId datasetId : String)
    (totalShards : Nat) : List Nat :=
  (List.range totalShards).filter
    (fun shardId => get_node_for_shard sm datasetId shardId = some nodeId)

/-- `u64::div_ceil` (`shard_size = 0` panics in Rust; callers pass > 0). -/
def divCeil (a b : Nat) : Nat := (a + b - 1) / b

/-- `ShardManager::register_dataset` (the epoch-counter initialization has
no bearing on any embedded value). -/
def register_dataset (meta : DatasetMetadata) (sm : ShardManager) : ShardManager :=
  { sm with datasets := insertKey meta.id meta sm.datasets }

/-- `ShardManager::register_dataset_params`. -/
def register_dataset_params (datasetId : String) (totalSamples shardSize : Nat)
    (shuffle : Bool) (seed : Nat) (sm : ShardManager) : ShardManager :=
  register_dataset
    ⟨datasetId, "", "unknown", totalSamples, divCeil totalSamples shardSize,
      shardSize, shuffle, seed⟩ sm

/-- `ShardManager::register_worker`: rank := current size of the rank
table (as `u32`), then insert/overwrite the rank, mark the worker active,
and add it to the ring. -/
def register_worker (workerId : String) (sm : ShardManager) : ShardManager :=
  let rank := sm.workerRanks.length % 4294967296
  add_node workerId
    { sm with
        workerRanks := insertKey workerId rank sm.workerRanks,
        activeWorkers :=
          if workerId ∈ sm.activeWorkers then sm.activeWorkers
          else workerId :: sm.activeWorkers }

/-- `ShardManager::reassign_ranks`: sort the current ids and renumber
them `0..W-1` (each index stored as `u32`). -/
def reassign_ranks (wr : List (String × Nat)) : List (String × Nat) :=
  let ws := (keysOf wr).mergeSort (fun a b => decide (a ≤ b))
  (List.enumFrom 0 ws).foldl (fun m p => insertKey p.2 (p.1 % 4294967296) m) wr

/-- `ShardManager::remove_worker`: drop the worker from the active set,
the rank table and the ring, then reassign ranks contiguously. -/
def remove_worker (workerId : String) (sm : ShardManager) : ShardManager :=
  let sm' := remove_node workerId
    { sm with
        activeWorkers := sm.activeWorkers.filter (fun w => w ≠ workerId),
        workerRanks := eraseKey workerId sm.workerRanks }
  { sm' with workerRanks := reassign_ranks sm'.workerRanks }

/-- `ShardManager::get_shard_for_worker`. `rng dataset epoch` is the
ChaCha8 draw stream seeded from `compute_epoch_seed(dataset, epoch)`.
The trailing bookkeeping write into `active_workers[worker].assigned_shards`
does not change the returned value. `u64` multiplication and addition
wrap, hence the explicit `% 2^64`. -/
def get_shard_for_worker (rng : String → Nat → Nat → Nat) (sm : ShardManager)
    (datasetId workerId : String) (epoch : Nat) : Option (List ShardAssignment) :=
  match lookupKey datasetId sm.datasets with
  | none => none
  | some dataset =>
    match lookupKey workerId sm.workerRanks with
    | none => none
    | some workerRank =>
      let totalWorkers := sm.activeWorkers.length
      if totalWorkers = 0 then none
      else
        let shardIds :=
          if dataset.shuffle then
            get_worker_shards (rng datasetId epoch) dataset.totalShards
              workerRank totalWorkers
          else
            get_shards_for_node sm workerId datasetId dataset.totalShards
        some (shardIds.map (fun shardId =>
          { datasetId := datasetId,
            shardId := shardId,
            totalShards := dataset.totalShards,
            startIndex := shardId * dataset.shardSize % 18446744073709551616,
            endIndex :=
              min ((shardId * dataset.shardSize % 18446744073709551616 +
                dataset.shardSize) % 18446744073709551616) dataset.totalSamples,
            filePaths := [],
            epoch := epoch }))

/-- Shard-manager membership operations, as driven by worker churn. -/
inductive SMOp
  | addWorker (id : String)
  | removeWorker (id : String)
deriving Repr

/-- Apply one membership operation. -/
def applySMOp (sm : ShardManager) : SMOp → ShardManager
  | .addWorker id => register_worker id sm
  | .removeWorker id => remove_worker id sm

/-- Run a sequence of membership operations. -/
def runSM (sm : ShardManager) : List SMOp → ShardManager
  | [] => sm
  | op :: ops => runSM (applySMOp sm op) ops

/-- All `addWorker` operations in the run are for ids not currently in
the rank table (re-registering a live worker is the service-level
`AlreadyExists` path, which never reaches `ShardManager::register_worker`). -/
def freshRun (sm : ShardManager) : List SMOp → Bool
  | [] => true
  | op :: ops =>
    (match op with
      | .addWorker id => decide (id ∉ keysOf sm.workerRanks)
      | .removeWorker _ => true) && freshRun (applySMOp sm op) ops

/-! ### Coordinator service surface (crates/coordinator/src/service.rs) -/

/-- The proto `DatasetInfo` tracked in the service's dataset map. -/
structure DatasetInfo where
  datasetId : String
  path : String
  format : String
  totalSamples : Nat
  shardSize : Nat
  shuffle : Bool
  seed : Nat
deriving DecidableEq, Repr

/-- gRPC status codes used by the embedded handlers. -/
inductive GrpcCode
  | ok
  | notFound
  | internal
  | alreadyExists
  | invalidArgument
  | deadlineExceeded
deriving DecidableEq, Repr

/-- The service state consulted by `get_data_shard`: its own dataset map
plus the shard manager. -/
structure CoordinatorState where
  datasets : List (String × DatasetInfo)
  sm : ShardManager
deriving Repr

/-- `CoordinatorService::register_dataset`: register with the shard
manager (path-less params form) and track the proto info. -/
def serviceRegisterDataset (info : DatasetInfo) (st : CoordinatorState) :
    CoordinatorState :=
  { datasets := insertKey info.datasetId info st.datasets,
    sm := register_dataset_params info.datasetId info.totalSamples info.shardSize
      info.shuffle info.seed st.sm }

/-- `CoordinatorService::get_data_shard`: unknown dataset → NotFound;
a `None` from the shard manager → Internal; an empty assignment list →
NotFound; otherwise the response is built from the first assignment with
`file_paths = [dataset.path]`. The response's `total_shards` recomputation
(`(total_samples as f64 / shard_size as f64).ceil()`) is modelled as the
exact ceiling, which it equals for all sizes below 2^53. -/
def get_data_shard (rng : String → Nat → Nat → Nat) (st : CoordinatorState)
    (workerId datasetId : String) (epoch : Nat) :
    Except (GrpcCode × String) ShardAssignment :=
  match lookupKey datasetId st.datasets with
  | none => .error (.notFound, "Dataset not found: " ++ datasetId)
  | some info =>
    match get_shard_for_worker rng st.sm datasetId workerId epoch with
    | none =>
      .error (.internal,
        "Failed to get shards for worker " ++ workerId ++ " on dataset " ++ datasetId)
    | some shards =>
      match shards with
      | [] => .error (.notFound, "No shards available for this worker")
      | shard :: _ =>
        .ok
          { datasetId := datasetId,
            shardId := shard.shardId,
            totalShards := divCeil info.totalSamples info.shardSize,
            startIndex := shard.startIndex,
            endIndex := shard.endIndex,
            filePaths := [info.path],
            epoch := epoch }

/-- The status code with which an embedded handler failed, if it did. -/
def errCode : Except (GrpcCode × String) α → Option GrpcCode
  | .error e => some e.1
  | .ok _ => none

/-! ### Checkpoint index (crates/checkpoint/src/manager.rs, writer.rs) -/

/-- `CheckpointType` (runtime-core types). -/
inductive CheckpointType
  | Full
  | Incremental
  | OptimizerOnly
  | ModelOnly
deriving DecidableEq, Repr

/-- `CheckpointMetadata`. The wall-clock `created_at` stamp is omitted;
no embedded operation branches on it. -/
structure CheckpointMetadata where
  id : String
  step : Nat
  epoch : Nat
  path : String
  sizeBytes : Nat
  checkpointType : CheckpointType
  modelHash : Option String
  metadata : List (String × String)
deriving DecidableEq, Repr

/-- `WriteStatus`. -/
inductive WriteStatus
  | Pending
  | InProgress
  | Completed
  | Failed
deriving DecidableEq, Repr

/-- `PendingCheckpoint` (note: it records no checkpoint type). -/
structure PendingCheckpoint where
  id : String
  step : Nat
  epoch : Nat
  status : WriteStatus
  error : Option String
deriving DecidableEq, Repr

/-- `WriteRequest` handed to the async writer (payload bytes omitted;
no embedded operation reads them). -/
structure WriteRequest where
  checkpointId : String
  step : Nat
  epoch : Nat
  path : String
  checkpointType : CheckpointType
  metadata : List (String × String)
deriving DecidableEq, Repr

/-- `BTreeMap<Step, CheckpointMetadata>::insert` on the
ascending-by-step entry list (overwrites an existing step). -/
def insertStep (s : Nat) (m : CheckpointMetadata) :
    List (Nat × CheckpointMetadata) → List (Nat × CheckpointMetadata)
  | [] => [(s, m)]
  | (s', m') :: rest =>
    if s < s' then (s, m) :: (s', m') :: rest
    else if s = s' then (s, m) :: rest
    else (s', m') :: insertStep s m rest

/-- `CheckpointManager::cleanup_old_checkpoints`: while the map holds
more than `keepCount` entries, remove the first (smallest-step) entry and
issue a fire-and-forget delete of its storage path. Returns the map and
the deleted paths in deletion order. -/
def cleanup_old_checkpoints (keepCount : Nat) :
    List (Nat × CheckpointMetadata) → List (Nat × CheckpointMetadata) × List String
  | [] => ([], [])
  | (s, m) :: rest =>
    if keepCount < rest.length + 1 then
      let pr := cleanup_old_checkpoints keepCount rest
      (pr.1, m.path :: pr.2)
    else ((s, m) :: rest, [])

/-- `CheckpointManager::save_async`: create the pending record (status
`Pending`; no checkpoint type is recorded) and the write request (which
does carry the caller's type). `uuid` abstracts `Uuid::new_v4()`. -/
def save_async (basePath uuid : String) (step epoch : Nat)
    (checkpointType : CheckpointType) (metadata : List (String × String)) :
    PendingCheckpoint × WriteRequest :=
  let checkpointId := "ckpt-" ++ toString step ++ "-" ++ uuid
  (⟨checkpointId, step, epoch, .Pending, none⟩,
    ⟨checkpointId, step, epoch, basePath ++ "/" ++ checkpointId ++ ".ckpt",
      checkpointType, metadata⟩)

/-- The metadata record built by the event listener on
`WriterEvent::Completed` (manager.rs `CheckpointManager::new`): the
checkpoint type is hardcoded to `Full` (the listener has only the pending
entry, which recorded no type), the metadata map is empty. -/
def completed_metadata (basePath : String) (entry : PendingCheckpoint)
    (checkpointId : String) (sizeBytes : Nat) : CheckpointMetadata :=
  ⟨checkpointId, entry.step, entry.epoch,
    basePath ++ "/" ++ checkpointId ++ ".ckpt", sizeBytes, .Full, none, []⟩

/-- The `Completed` arm of the event listener: mark the pending entry
completed, insert the metadata at its step, then apply retention.
Returns (pending map, step map, deleted paths). An unknown checkpoint id
changes nothing. -/
def handle_completed (keepCount : Nat) (basePath : String)
    (pending : List (String × PendingCheckpoint))
    (cks : List (Nat × CheckpointMetadata))
    (checkpointId : String) (sizeBytes : Nat) :
    List (String × PendingCheckpoint) × List (Nat × CheckpointMetadata) × List String :=
  match lookupKey checkpointId pending with
  | none => (pending, cks, [])
  | some entry =>
    let entry' := { entry with status := .Completed }
    let meta := completed_metadata basePath entry' checkpointId sizeBytes
    let pr := cleanup_old_checkpoints keepCount (insertStep entry.step meta cks)
    (insertKey checkpointId entry' pending, pr.1, pr.2)

/-- The metadata record built by
`CheckpointManager::register_external_checkpoint`: the checkpoint type is
hardcoded to `Full` whatever the external writer produced. -/
def external_checkpoint_metadata (checkpointId : String) (step epoch : Nat)
    (path : String) (sizeBytes : Nat) (metadata : List (String × String)) :
    CheckpointMetadata :=
  ⟨checkpointId, step, epoch, path, sizeBytes, .Full, none, metadata⟩

/-- `CheckpointManager::register_external_checkpoint`: insert directly
into the step map (overwriting and warning if the step exists), then
apply retention. Returns the map and the deleted paths. -/
def register_external_checkpoint (keepCount : Nat) (checkpointId : String)
    (step epoch : Nat) (path : String) (sizeBytes : Nat)
    (metadata : List (String × String))
    (cks : List (Nat × CheckpointMetadata)) :
    List (Nat × CheckpointMetadata) × List String :=
  cleanup_old_checkpoints keepCount
    (insertStep step
      (external_checkpoint_metadata checkpointId step epoch path sizeBytes metadata) cks)

/-- `CheckpointManager::latest` / `find_recovery_checkpoint`: the
highest-step entry (`values().last()` of the ascending map). -/
def find_recovery_checkpoint (cks : List (Nat × CheckpointMetadata)) :
    Option CheckpointMetadata :=
  cks.getLast?.map (fun e => e.2)

/-- The checkpoint-info part of `CoordinatorService::get_latest_checkpoint`'s
response: built from the recovery candidate, with the proto `type` field
hardcoded to `Full` (`proto::CheckpointType::Full as i32`). -/
structure RecoveryCheckpointInfo where
  checkpointId : String
  step : Nat
  epoch : Nat
  storagePath : String
  sizeBytes : Nat
  ckptType : CheckpointType
  metadata : List (String × String)
deriving DecidableEq, Repr

/-- `get_latest_checkpoint`, restricted to the checkpoint-info payload
(`has_checkpoint = false` is `none`). -/
def get_latest_checkpoint_info (cks : List (Nat × CheckpointMetadata)) :
    Option RecoveryCheckpointInfo :=
  (find_recovery_checkpoint cks).map (fun c =>
    ⟨c.id, c.step, c.epoch, c.path, c.sizeBytes, .Full, c.metadata⟩)

/-- Strictly-ascending-by-step invariant of the `BTreeMap` embedding. -/
def stepSorted (cks : List (Nat × CheckpointMetadata)) : Prop :=
  cks.Pairwise (fun a b => a.1 < b.1)

instance (cks : List (Nat × CheckpointMetadata)) : Decidable (stepSorted cks) := by
  unfold stepSorted
  infer_instance

/-- `AsyncCheckpointWriter::new`'s channel capacity, exactly as written:
`buffer_size / (1024 * 1024).max(16)` — method call binds tighter than
division, so the `.max(16)` applies to the literal `1024 * 1024`. -/
def writerChannelCapacity (bufferSize : Nat) : Nat :=
  bufferSize / (max (1024 * 1024) 16)

/-- Modelled from the spec: the capacity §4.5 describes,
`writeBufferSize / 1MB` clamped to at least 16. -/
def specWriterChannelCapacity (bufferSize : Nat) : Nat :=
  max (bufferSize / (1024 * 1024)) 16

/-! ### Lemmas: the shuffle is a permutation, the round-robin cut partitions -/

theorem cons_get_set_perm :
    ∀ (t : List α) (m : Nat) (hm : m < t.length) (x : α),
      List.Perm (t.get ⟨m, hm⟩ :: t.set m x) (x :: t) := by
  intro t
  induction t with
  | nil => intro m hm x; exact absurd hm (by simp)
  | cons a t ih =>
    intro m hm x
    cases m with
    | zero => simpa using List.Perm.swap x a t
    | succ k =>
      have hk : k < t.length := by simpa using hm
      exact ((List.Perm.swap a _ _).trans (((ih k hk x).cons a))).trans
        (List.Perm.swap x a t)

theorem set_set_perm :
    ∀ (l : List α) (i j : Nat) (hi : i < l.length) (hj : j < l.length),
      List.Perm ((l.set i (l.get ⟨j, hj⟩)).set j (l.get ⟨i, hi⟩)) l := by
  intro l
  induction l with
  | nil => intro i j hi _; exact absurd hi (by simp)
  | cons a t ih =>
    intro i j hi hj
    cases i with
    | zero =>
      cases j with
      | zero => simp
      | succ m =>
        have hm : m < t.length := by simpa using hj
        simpa using cons_get_set_perm t m hm a
    | succ k =>
      have hk : k < t.length := by simpa using hi
      cases j with
      | zero => simpa using cons_get_set_perm t k hk a
      | succ m =>
        have hm : m < t.length := by simpa using hj
        simpa using (ih k m hk hm).cons a

theorem swapL_perm (l : List α) (i j : Nat) : List.Perm (swapL l i j) l := by
  unfold swapL
  split
  · exact set_set_perm _ _ _ _ _
  · exact List.Perm.refl l

theorem fyAux_perm (f : Nat → Nat) : ∀ (i : Nat) (l : List α),
    List.Perm (fyAux f i l) l := by
  intro i
  induction i with
  | zero => intro l; exact List.Perm.refl l
  | succ i ih =>
    intro l
    exact (ih _).trans (swapL_perm l (i + 1) (f (i + 1) % (i + 2)))

theorem fisherYates_perm (f : Nat → Nat) (l : List α) :
    List.Perm (fisherYates f l) l := fyAux_perm f _ l

/-- `get_shuffled_shards` returns a permutation of `[0, C)`. -/
theorem get_shuffled_shards_perm (f : Nat → Nat) (C : Nat) :
    List.Perm (get_shuffled_shards f C) (List.range C) :=
  fisherYates_perm f (List.range C)

theorem filterMap_enumFrom_eq_rrSel (φ : Nat → Nat) (r : Nat) :
    ∀ (l : List α) (k : Nat),
      (List.enumFrom k l).filterMap
        (fun p => if φ p.1 = r then some p.2 else none) = rrSel φ r k l := by
  intro l
  induction l with
  | nil => intro k; rfl
  | cons a l ih =>
    intro k
    by_cases h : φ k = r <;>
      simp [List.enumFrom_cons, List.filterMap_cons, h, rrSel, ih]

theorem flatMap_congr_fun {g g' : Nat → List α} :
    ∀ (rs : List Nat), (∀ r ∈ rs, g r = g' r) → rs.flatMap g = rs.flatMap g' := by
  intro rs
  induction rs with
  | nil => intro _; rfl
  | cons r rs ih =>
    intro h
    simp only [List.flatMap_cons, h r (by simp), ih (fun x hx => h x (by simp [hx]))]

theorem flatMap_extract {g g' : Nat → List α} {rs : List Nat} {m : Nat} {a : α}
    (hnd : rs.Nodup) (hm : m ∈ rs) (hgm : g m = a :: g' m)
    (hg : ∀ r, r ≠ m → g r = g' r) :
    List.Perm (rs.flatMap g) (a :: rs.flatMap g') := by
  induction rs with
  | nil => exact absurd hm (by simp)
  | cons r rs ih =>
    have hr : r ∉ rs := (List.nodup_cons.mp hnd).1
    have hnd' : rs.Nodup := (List.nodup_cons.mp hnd).2
    rcases List.mem_cons.mp hm with hrm | hmem
    · subst hrm
      have hrest : rs.flatMap g = rs.flatMap g' :=
        flatMap_congr_fun rs (fun x hx => hg x (fun hxm => hr (hxm ▸ hx)))
      simp only [List.flatMap_cons, hgm, hrest]
      exact List.Perm.refl _
    · have hrm : r ≠ m := fun h => hr (h ▸ hmem)
      simp only [List.flatMap_cons, hg r hrm]
      exact (List.Perm.append_left _ (ih hnd' hmem)).trans List.perm_middle

theorem flatMap_rrSel_perm (φ : Nat → Nat) (W : Nat) (hφ : ∀ i, φ i < W) :
    ∀ (l : List α) (k : Nat),
      List.Perm ((List.range W).flatMap (fun r => rrSel φ r k l)) l := by
  intro l
  induction l with
  | nil => intro k; simp [rrSel]
  | cons a l ih =>
    intro k
    have hstep :
        List.Perm ((List.range W).flatMap (fun r => rrSel φ r k (a :: l)))
          (a :: (List.range W).flatMap (fun r => rrSel φ r (k + 1) l)) := by
      refine flatMap_extract (List.nodup_range W) (List.mem_range.mpr (hφ k)) ?_ ?_
      · simp [rrSel]
      · intro r hr
        simp only [rrSel, if_neg (Ne.symm hr)]
    exact hstep.trans ((ih (k + 1)).cons a)

theorem get_worker_shards_eq_rrSel (f : Nat → Nat) (C r W : Nat) (hW : W ≠ 0) :
    get_worker_shards f C r W =
      rrSel (fun i => i % 4294967296 % W) r 0 (get_shuffled_shards f C) := by
  unfold get_worker_shards
  rw [if_neg hW, List.enum,
    filterMap_enumFrom_eq_rrSel (fun i => i % 4294967296 % W) r _ 0]

theorem flatMap_get_worker_shards_perm (f : Nat → Nat) (C W : Nat) (hW : 0 < W) :
    List.Perm ((List.range W).flatMap (fun r => get_worker_shards f C r W))
      (List.range C) := by
  have hφ : ∀ i, i % 4294967296 % W < W := fun i => Nat.mod_lt _ hW
  have h1 : (List.range W).flatMap (fun r => get_worker_shards f C r W) =
      (List.range W).flatMap
        (fun r => rrSel (fun i => i % 4294967296 % W) r 0 (get_shuffled_shards f C)) :=
    flatMap_congr_fun _ (fun r _ => get_worker_shards_eq_rrSel f C r W (Nat.pos_iff_ne_zero.mp hW))
  rw [h1]
  exact (flatMap_rrSel_perm _ W hφ _ 0).trans (get_shuffled_shards_perm f C)

/-- **C1.** For every RNG draw stream `f` (hence for the ChaCha8 stream of any
dataset, epoch and base seed), shard count `C` and world size `W` with
`0 < W ≤ C`, the per-rank lists `get_worker_shards` for ranks `0..W-1` are
pairwise disjoint and their union is exactly `{0, ..., C-1}`. -/
theorem worker_shards_partition (f : Nat → Nat) (C W : Nat)
    (hW : 0 < W) (_hCW : W ≤ C) :
    (∀ r₁ r₂, r₁ < W → r₂ < W → r₁ ≠ r₂ →
        ∀ x, x ∈ get_worker_shards f C r₁ W → x ∉ get_worker_shards f C r₂ W) ∧
      (∀ x, (∃ r, r < W ∧ x ∈ get_worker_shards f C r W) ↔ x < C) := by
  have hperm := flatMap_get_worker_shards_perm f C W hW
  constructor
  · have hnd : ((List.range W).flatMap (fun r => get_worker_shards f C r W)).Nodup :=
      hperm.symm.nodup (List.nodup_range C)
    have hpw := (List.nodup_flatMap.mp hnd).2
    intro r₁ r₂ h₁ h₂ hne x hx₁ hx₂
    have hd := List.Pairwise.forall
      (R := Function.onFun List.Disjoint (fun r => get_worker_shards f C r W))
      (fun _ _ h => List.Disjoint.symm h) hpw
      (List.mem_range.mpr h₁) (List.mem_range.mpr h₂) hne
    exact hd hx₁ hx₂
  · intro x
    constructor
    · intro ⟨r, hr, hx⟩
      have : x ∈ (List.range W).flatMap (fun r => get_worker_shards f C r W) :=
        List.mem_flatMap.mpr ⟨r, List.mem_range.mpr hr, hx⟩
      exact List.mem_range.mp (hperm.mem_iff.mp this)
    · intro hx
      have : x ∈ (List.range W).flatMap (fun r => get_worker_shards f C r W) :=
        hperm.mem_iff.mpr (List.mem_range.mpr hx)
      obtain ⟨r, hr, hxr⟩ := List.mem_flatMap.mp this
      exact ⟨r, List.mem_range.mp hr, hxr⟩

/-- Witness for C1 at `f = λ i, 3 i + 1`, `C = 5`, `W = 2`. -/
theorem worker_shards_partition_witness :
    (0 < 2 ∧ 2 ≤ 5) ∧
      ((∀ r₁ r₂, r₁ < 2 → r₂ < 2 → r₁ ≠ r₂ →
          ∀ x, x ∈ get_worker_shards (fun i => 3 * i + 1) 5 r₁ 2 →
            x ∉ get_worker_shards (fun i => 3 * i + 1) 5 r₂ 2) ∧
        (∀ x, (∃ r, r < 2 ∧ x ∈ get_worker_shards (fun i => 3 * i + 1) 5 r 2) ↔ x < 5)) :=
  ⟨⟨by decide, by decide⟩,
    worker_shards_partition (fun i => 3 * i + 1) 5 2 (by decide) (by decide)⟩

/-! ### Lemmas for the barrier -/

theorem waitersFrom_map_fst : ∀ (cs : List Nat) (a : Nat),
    (waitersFrom cs a).map Prod.fst = cs := by
  intro cs
  induction cs with
  | nil => intro a; rfl
  | cons c cs ih => intro a; simp [waitersFrom, ih]

theorem waitersFrom_map_snd : ∀ (cs : List Nat) (a : Nat),
    (waitersFrom cs a).map Prod.snd = List.range' (a + 1) cs.length := by
  intro cs
  induction cs with
  | nil => intro a; rfl
  | cons c cs ih => intro a; simp [waitersFrom, ih, List.range'_succ]

theorem runBarrier_fill : ∀ (cs : List Nat) (K a : Nat) (w : List (Nat × Nat)),
    a + cs.length < K →
    runBarrier (some ⟨K, a, w⟩) K cs =
      (some ⟨K, a + cs.length, w ++ waitersFrom cs a⟩, []) := by
  intro cs
  induction cs with
  | nil => intro K a w _; simp [runBarrier, waitersFrom]
  | cons c cs ih =>
    intro K a w h
    have hlt : ¬ K ≤ a + 1 := by
      simp only [List.length_cons] at h
      omega
    have hstep : waitBarrierStep (some ⟨K, a, w⟩) K c =
        (some ⟨K, a + 1, w ++ [(c, a + 1)]⟩, []) := by
      simp [waitBarrierStep, hlt]
    have h' : a + 1 + cs.length < K := by
      simp only [List.length_cons] at h
      omega
    simp only [runBarrier, hstep, ih K (a + 1) (w ++ [(c, a + 1)]) h',
      List.length_cons, waitersFrom, List.append_assoc, List.singleton_append,
      List.nil_append, List.append_nil]
    have hq : a + 1 + cs.length = a + (cs.length + 1) := by omega
    rw [hq]

theorem runBarrier_start (ws c : Nat) (cs : List Nat) :
    runBarrier none ws (c :: cs) = runBarrier (some ⟨ws, 0, []⟩) ws (c :: cs) := rfl

theorem runBarrier_append (ws : Nat) :
    ∀ (l₁ l₂ : List Nat) (st : Option BarrierSt),
      runBarrier st ws (l₁ ++ l₂) =
        ((runBarrier (runBarrier st ws l₁).1 ws l₂).1,
          (runBarrier st ws l₁).2 ++ (runBarrier (runBarrier st ws l₁).1 ws l₂).2) := by
  intro l₁
  induction l₁ with
  | nil => intro l₂ st; simp [runBarrier]
  | cons c cs ih =>
    intro l₂ st
    simp only [List.cons_append, runBarrier, List.append_eq, ih, List.append_assoc]

/-- **C3.** A barrier whose snapshotted expectation is `K ≥ 1`, receiving
exactly `K` arrivals: every caller gets `released = true` with
`participants = K`, the arrival orders are exactly `1, …, K` (pairwise
distinct, covering `[1, K]`), every suspended waiter is delivered the
release signal by the last arrival, and the barrier record is removed. -/
theorem barrier_release (K : Nat) (callers : List Nat)
    (hK : 0 < K) (hlen : callers.length = K) :
    (runBarrier none K callers).1 = none ∧
      (runBarrier none K callers).2.length = K ∧
      (∀ p ∈ (runBarrier none K callers).2,
        p.2.released = true ∧ p.2.participants = K) ∧
      (runBarrier none K callers).2.map (fun p => p.2.arrivalOrder) =
        List.range' 1 K ∧
      (runBarrier none K callers).2.map Prod.fst = callers := by
  obtain ⟨mid, last, hsplit⟩ : ∃ mid last, callers = mid ++ [last] := by
    rcases List.eq_nil_or_concat callers with h | ⟨mid, last, h⟩
    · rw [h] at hlen; simp at hlen; omega
    · exact ⟨mid, last, by simpa [List.concat_eq_append] using h⟩
  subst hsplit
  have hmidlen : mid.length = K - 1 := by
    simp only [List.length_append, List.length_cons, List.length_nil] at hlen
    omega
  have hlaststep : waitBarrierStep (some ⟨K, K - 1, waitersFrom mid 0⟩) K last =
      (none, (waitersFrom mid 0).map (fun w => (w.1, ⟨true, K, w.2⟩)) ++
        [(last, ⟨true, K, K⟩)]) := by
    have h1 : K - 1 + 1 = K := by omega
    simp [waitBarrierStep, h1]
  have hrun : runBarrier none K (mid ++ [last]) =
      (none, (waitersFrom mid 0).map (fun w => (w.1, ⟨true, K, w.2⟩)) ++
        [(last, ⟨true, K, K⟩)]) := by
    cases mid with
    | nil =>
      have hK1 : K = 1 := by
        simp only [List.length_nil] at hmidlen
        omega
      subst hK1
      simp [runBarrier, waitBarrierStep, waitersFrom]
    | cons c cs =>
      rw [runBarrier_append K (c :: cs) [last] none, runBarrier_start K c cs]
      have hfill : runBarrier (some ⟨K, 0, []⟩) K (c :: cs) =
          (some ⟨K, 0 + (c :: cs).length, [] ++ waitersFrom (c :: cs) 0⟩, []) := by
        refine runBarrier_fill (c :: cs) K 0 [] ?_
        simp only [List.length_cons] at hmidlen ⊢
        omega
      have hcl : 0 + (c :: cs).length = K - 1 := by
        simpa using hmidlen
      rw [hfill]
      simp only [hcl, List.nil_append]
      simp [runBarrier, hlaststep]
  rw [hrun]
  have hwl : (waitersFrom mid 0).length = mid.length := by
    have h2 := congrArg List.length (waitersFrom_map_fst mid 0)
    simpa using h2
  refine ⟨rfl, ?_, ?_, ?_, ?_⟩
  · simp only [List.length_append, List.length_map, List.length_cons,
      List.length_nil, hwl, hmidlen]
    omega
  · intro p hp
    simp only [List.mem_append, List.mem_map, List.mem_singleton] at hp
    rcases hp with ⟨w, _, rfl⟩ | rfl
    · exact ⟨rfl, rfl⟩
    · exact ⟨rfl, rfl⟩
  · have h1 : ((waitersFrom mid 0).map (fun w => (w.1, (⟨true, K, w.2⟩ : BarrierOutcome)))).map
        (fun p => p.2.arrivalOrder) = (waitersFrom mid 0).map Prod.snd := by
      simp [List.map_map, Function.comp]
    rw [List.map_append, h1, waitersFrom_map_snd, hmidlen]
    have hKsplit : List.range' 1 K = List.range' 1 (K - 1) ++ [K] := by
      have hK' : K = (K - 1) + 1 := by omega
      conv_lhs => rw [hK']
      rw [List.range'_concat]
      congr 2
      omega
    rw [hKsplit]
    simp
  · have h1 : ((waitersFrom mid 0).map (fun w => (w.1, (⟨true, K, w.2⟩ : BarrierOutcome)))).map
        Prod.fst = (waitersFrom mid 0).map Prod.fst := by
      simp [List.map_map, Function.comp]
    rw [List.map_append, h1, waitersFrom_map_fst]
    simp

/-- Witness for C3 at `K = 3` with callers `7, 8, 9`. -/
theorem barrier_release_witness :
    (0 < 3 ∧ ([7, 8, 9] : List Nat).length = 3) ∧
      ((runBarrier none 3 [7, 8, 9]).1 = none ∧
        (runBarrier none 3 [7, 8, 9]).2.length = 3 ∧
        (∀ p ∈ (runBarrier none 3 [7, 8, 9]).2,
          p.2.released = true ∧ p.2.participants = 3) ∧
        (runBarrier none 3 [7, 8, 9]).2.map (fun p => p.2.arrivalOrder) =
          List.range' 1 3 ∧
        (runBarrier none 3 [7, 8, 9]).2.map Prod.fst = [7, 8, 9]) :=
  ⟨⟨by decide, by decide⟩, barrier_release 3 [7, 8, 9] (by decide) (by decide)⟩

/-! ### Lemmas for the worker registry -/

/-- **C5 (counterexample).** The registry performs the transition
`Dead → Training`, which the §4.4 edge list forbids: register a worker,
let the dead sweep mark it `Dead` (no heartbeat for 100s > 30s timeout),
then deliver a heartbeat reporting `Training`. -/
theorem state_machine_counterexample :
    specAllowedEdge .Dead .Training = false ∧
      (TransKind.hb .Training, WorkerState.Dead, WorkerState.Training) ∈
        (runRegistry (WorkerRegistry.new 10)
          [.register "w" 0, .checkDead 100 30, .heartbeat "w" .Training 100]).2 := by
  decide

/-- **C5 (amended).** The registry performs no state-machine validation:
a heartbeat sets the state to exactly the reported state whatever the old
state was (so edges outside §4.4, e.g. `Dead → Training`, do occur); the
only constrained changes are registration (`Initializing → Idle`) and the
dead sweep (`s → Dead` with `s ≠ Dead`). -/
theorem registry_transition_characterization (max : Nat) (ops : List RegOp) :
    ∀ t ∈ (runRegistry (WorkerRegistry.new max) ops).2,
      (∀ st, t.1 = .hb st → t.2.2 = st) ∧
        (t.1 = .reg → t.2.1 = .Initializing ∧ t.2.2 = .Idle) ∧
        (t.1 = .sweep → t.2.2 = .Dead ∧ t.2.1 ≠ .Dead) := by
  suffices h : ∀ (ops : List RegOp) (r : WorkerRegistry),
      ∀ t ∈ (runRegistry r ops).2,
        (∀ st, t.1 = .hb st → t.2.2 = st) ∧
          (t.1 = .reg → t.2.1 = .Initializing ∧ t.2.2 = .Idle) ∧
          (t.1 = .sweep → t.2.2 = .Dead ∧ t.2.1 ≠ .Dead) by
    exact h ops (WorkerRegistry.new max)
  intro ops
  induction ops with
  | nil => intro r t ht; simp [runRegistry] at ht
  | cons op ops ih =>
    intro r t ht
    simp only [runRegistry, List.mem_append] at ht
    rcases ht with hop | hrest
    · cases op with
      | register id now =>
        simp only [applyRegOp] at hop
        split at hop
        · simp at hop
        · split at hop
          · simp at hop
          · simp only [List.mem_singleton] at hop
            subst hop
            refine ⟨?_, ?_, ?_⟩
            · intro st h; simp at h
            · intro _; exact ⟨rfl, rfl⟩
            · intro h; simp at h
      | deregister id =>
        simp [applyRegOp] at hop
      | heartbeat id st now =>
        simp only [applyRegOp] at hop
        cases hlk : lookupKey id r.workers with
        | none => rw [hlk] at hop; simp at hop
        | some w =>
          rw [hlk] at hop
          simp only [List.mem_singleton] at hop
          subst hop
          refine ⟨?_, ?_, ?_⟩
          · intro st' h
            injection h
          · intro h; simp at h
          · intro h; simp at h
      | checkDead now timeout =>
        simp only [applyRegOp] at hop
        rcases List.mem_filterMap.mp hop with ⟨p, _, hp⟩
        by_cases hc : timeout < now - p.2.lastHeartbeat ∧ p.2.state ≠ .Dead
        · rw [if_pos hc] at hp
          cases hp
          refine ⟨?_, ?_, ?_⟩
          · intro st h; simp at h
          · intro h; simp at h
          · intro _; exact ⟨rfl, hc.2⟩
        · rw [if_neg hc] at hp
          cases hp
    · exact ih _ t hrest

/-- Witness for C5 (amended): the `Dead → Training` change performed by
the demo run is a heartbeat-tagged change installing exactly the
reported state. -/
theorem registry_transition_characterization_witness :
    ((TransKind.hb .Training, WorkerState.Dead, WorkerState.Training) ∈
        (runRegistry (WorkerRegistry.new 10)
          [.register "w" 0, .checkDead 100 30, .heartbeat "w" .Training 100]).2) ∧
      ((∀ st, (TransKind.hb .Training, WorkerState.Dead, WorkerState.Training).1 =
            .hb st →
          (TransKind.hb .Training, WorkerState.Dead, WorkerState.Training).2.2 = st) ∧
        ((TransKind.hb .Training, WorkerState.Dead, WorkerState.Training).1 = .reg →
          (TransKind.hb .Training, WorkerState.Dead, WorkerState.Training).2.1 =
              .Initializing ∧
            (TransKind.hb .Training, WorkerState.Dead, WorkerState.Training).2.2 = .Idle) ∧
        ((TransKind.hb .Training, WorkerState.Dead, WorkerState.Training).1 = .sweep →
          (TransKind.hb .Training, WorkerState.Dead, WorkerState.Training).2.2 = .Dead ∧
            (TransKind.hb .Training, WorkerState.Dead, WorkerState.Training).2.1 ≠ .Dead)) :=
  ⟨by decide,
    registry_transition_characterization 10
      [.register "w" 0, .checkDead 100 30, .heartbeat "w" .Training 100]
      (TransKind.hb .Training, WorkerState.Dead, WorkerState.Training) (by decide)⟩

/-- **C2 (counterexample).** On the worker registry itself the invariant
fails: `register a; register b; deregister a` leaves one worker whose
rank is 1, and `[1]` is not a permutation of `[0, 1) = [0]` — ranks come
from a monotone counter and `deregister` does not renumber. -/
theorem rank_density_counterexample :
    ((runRegistry (WorkerRegistry.new 10)
        [.register "a" 0, .register "b" 0, .deregister "a"]).1.workers.map
      (fun p => p.2.rank)) = [1] ∧
      ¬ ranksDense (runRegistry (WorkerRegistry.new 10)
        [.register "a" 0, .register "b" 0, .deregister "a"]).1.workers := by
  decide

/-! ### Checkpoint-type and channel-capacity theorems -/

/-- **C8 (code evidence).** The channel capacity is `buffer_size / 2^20`
with no clamp: `.max(16)` binds to the literal `1024 * 1024` (a no-op),
so an 8 MiB buffer yields capacity 8 (< 16, contradicting the spec's
clamp, whose value `specWriterChannelCapacity` gives), and a buffer
below 1 MiB yields capacity 0 (which panics tokio's `mpsc::channel`). -/
theorem writer_channel_capacity_unclamped :
    (∀ b, writerChannelCapacity b = b / (1024 * 1024)) ∧
      writerChannelCapacity (8 * 1024 * 1024) = 8 ∧
      writerChannelCapacity (8 * 1024 * 1024) < 16 ∧
      specWriterChannelCapacity (8 * 1024 * 1024) = 16 ∧
      writerChannelCapacity (512 * 1024) = 0 := by
  refine ⟨fun b => ?_, by decide, by decide, by decide, by decide⟩
  unfold writerChannelCapacity
  norm_num

/-- **C10.** Every record inserted into the step map carries
`checkpoint_type = Full`: the `Completed`-event path builds `Full`
(whatever type `save_async`'s caller supplied — the pending record never
stores it), external registration builds `Full`, and
`get_latest_checkpoint` reports `Full` whenever a checkpoint exists. -/
theorem checkpoint_type_always_full :
    (∀ cid s e p sz md,
        (external_checkpoint_metadata cid s e p sz md).checkpointType = .Full) ∧
      (∀ bp entry cid sz,
        (completed_metadata bp entry cid sz).checkpointType = .Full) ∧
      (∀ bp uuid s e ty md sz,
        (completed_metadata bp (save_async bp uuid s e ty md).1
          (save_async bp uuid s e ty md).1.id sz).checkpointType = .Full) ∧
      (∀ cks, (get_latest_checkpoint_info cks).map (fun i => i.ckptType) =
        (get_latest_checkpoint_info cks).map (fun _ => CheckpointType.Full)) := by
  refine ⟨fun _ _ _ _ _ _ => rfl, fun _ _ _ _ => rfl, fun _ _ _ _ _ _ _ => rfl, ?_⟩
  intro cks
  unfold get_latest_checkpoint_info
  cases find_recovery_checkpoint cks <;> rfl

/-! ### Service-level shard theorems -/

theorem lookupKey_nil (k : String) : lookupKey k ([] : List (String × α)) = none := rfl

set_option maxRecDepth 4000 in
/-- **C9 (counterexample).** With a registered dataset and zero workers,
`get_data_shard` fails with status `Internal` ("Failed to get shards…"),
not `NotFound`: the shard manager returns `None` (no rank for the
worker), which the service maps to `Status::internal`. -/
theorem get_data_shard_world_zero_counterexample :
    errCode (get_data_shard (fun _ _ _ => 0)
        (serviceRegisterDataset ⟨"d", "/data/d", "parquet", 100, 10, true, 42⟩
          ⟨[], ShardManager.empty⟩) "w" "d" 0) = some .internal ∧
      GrpcCode.internal ≠ GrpcCode.notFound := by
  decide

/-- **C9 (amended).** When no worker is registered (world size 0), a
`GetDataShard` request for a registered dataset fails with an `Internal`
status, not `NotFound`. -/
theorem get_data_shard_no_workers (rng : String → Nat → Nat → Nat)
    (st : CoordinatorState) (workerId datasetId : String) (epoch : Nat)
    (info : DatasetInfo)
    (hds : lookupKey datasetId st.datasets = some info)
    (hw : st.sm.workerRanks = []) :
    get_data_shard rng st workerId datasetId epoch =
      .error (.internal,
        "Failed to get shards for worker " ++ workerId ++ " on dataset " ++ datasetId) := by
  unfold get_data_shard
  rw [hds]
  have hsm : get_shard_for_worker rng st.sm datasetId workerId epoch = none := by
    unfold get_shard_for_worker
    rw [hw]
    cases lookupKey datasetId st.sm.datasets <;> rfl
  rw [hsm]

/-- Witness for C9 (amended) at a concrete one-dataset, zero-worker state. -/
theorem get_data_shard_no_workers_witness :
    (lookupKey "d" (serviceRegisterDataset ⟨"d", "/data/d", "parquet", 100, 10, true, 42⟩
        ⟨[], ShardManager.empty⟩).datasets =
          some ⟨"d", "/data/d", "parquet", 100, 10, true, 42⟩ ∧
      (serviceRegisterDataset ⟨"d", "/data/d", "parquet", 100, 10, true, 42⟩
        ⟨[], ShardManager.empty⟩).sm.workerRanks = []) ∧
      get_data_shard (fun _ _ _ => 0)
        (serviceRegisterDataset ⟨"d", "/data/d", "parquet", 100, 10, true, 42⟩
          ⟨[], ShardManager.empty⟩) "w" "d" 0 =
        .error (.internal, "Failed to get shards for worker " ++ "w" ++ " on dataset " ++ "d") :=
  ⟨⟨by decide, by decide⟩,
    get_data_shard_no_workers (fun _ _ _ => 0) _ "w" "d" 0
      ⟨"d", "/data/d", "parquet", 100, 10, true, 42⟩ (by decide) (by decide)⟩

/-! ### Hash-ring / registration idempotence theorems -/

theorem add_node_workerRanks (n : String) (sm : ShardManager) :
    (add_node n sm).workerRanks = sm.workerRanks := by
  unfold add_node
  split <;> rfl

theorem add_node_activeWorkers (n : String) (sm : ShardManager) :
    (add_node n sm).activeWorkers = sm.activeWorkers := by
  unfold add_node
  split <;> rfl

theorem add_node_datasets (n : String) (sm : ShardManager) :
    (add_node n sm).datasets = sm.datasets := by
  unfold add_node
  split <;> rfl

theorem remove_node_workerRanks (n : String) (sm : ShardManager) :
    (remove_node n sm).workerRanks = sm.workerRanks := by
  unfold remove_node
  rfl

theorem mem_ringNodes_add_node (n : String) (sm : ShardManager) :
    n ∈ (add_node n sm).ringNodes := by
  unfold add_node
  split
  · assumption
  · simp

theorem add_node_mem_noop (n : String) (sm : ShardManager)
    (h : n ∈ sm.ringNodes) : add_node n sm = sm := by
  unfold add_node
  rw [if_pos h]

theorem lookupKey_insertKey_self (k : String) (v : α) (m : List (String × α)) :
    lookupKey k (insertKey k v m) = some v := by
  simp [insertKey, lookupKey]

theorem eraseKey_of_not_mem (k : String) (m : List (String × α))
    (h : k ∉ keysOf m) : eraseKey k m = m := by
  induction m with
  | nil => rfl
  | cons p rest ih =>
    simp only [keysOf, List.map_cons, List.mem_cons] at h
    push_neg at h
    show List.filter _ (p :: rest) = p :: rest
    rw [List.filter_cons, if_pos (by simpa using (Ne.symm h.1))]
    exact congrArg (List.cons p) (ih (by simp [keysOf, h.2]))

theorem count_keysOf_eraseKey (k : String) (m : List (String × α)) :
    (keysOf (eraseKey k m)).count k = 0 := by
  rw [List.count_eq_zero]
  intro hmem
  induction m with
  | nil => simp [eraseKey, keysOf] at hmem
  | cons p rest ih =>
    simp only [eraseKey, List.filter_cons] at hmem
    by_cases hp : p.1 = k
    · rw [if_neg (by simp [hp])] at hmem
      exact ih hmem
    · rw [if_pos (by simpa using hp)] at hmem
      simp only [keysOf, List.map_cons, List.mem_cons] at hmem
      rcases hmem with h | h
      · exact hp h.symm
      · exact ih (by simpa [keysOf] using h)

/-- **C7 (counterexample).** `register_worker` is not rank-idempotent:
adding the same worker to an empty shard manager twice re-assigns its
rank to 1 (the table size at the second call), while a single add gives
rank 0. -/
theorem register_worker_rank_counterexample :
    lookupKey "a" (register_worker "a"
        (register_worker "a" ShardManager.empty)).workerRanks = some 1 ∧
      lookupKey "a" (register_worker "a" ShardManager.empty).workerRanks = some 0 ∧
      (1 : Nat) ≠ 0 := by
  decide

/-- **C7 (amended).** `addWorker(N); addWorker(N)` leaves exactly one
rank binding for `N` and the hash ring after the second add equals the
ring after the first (`add_node` is a guarded no-op); but the second add
re-assigns `N`'s rank to the current table size, so `N`'s rank is the
single-add rank plus one, not the single-add rank. -/
theorem register_worker_double_add (sm : ShardManager) (id : String)
    (hfresh : id ∉ keysOf sm.workerRanks)
    (hlen : sm.workerRanks.length + 1 < 4294967296) :
    (register_worker id (register_worker id sm)).ringEntries =
        (register_worker id sm).ringEntries ∧
      (register_worker id (register_worker id sm)).ringNodes =
        (register_worker id sm).ringNodes ∧
      (keysOf (register_worker id (register_worker id sm)).workerRanks).count id = 1 ∧
      lookupKey id (register_worker id sm).workerRanks =
        some sm.workerRanks.length ∧
      lookupKey id (register_worker id (register_worker id sm)).workerRanks =
        some (sm.workerRanks.length + 1) := by
  have hmod1 : sm.workerRanks.length % 4294967296 = sm.workerRanks.length :=
    Nat.mod_eq_of_lt (by omega)
  have hwr1 : (register_worker id sm).workerRanks =
      insertKey id sm.workerRanks.length sm.workerRanks := by
    unfold register_worker
    rw [add_node_workerRanks, hmod1]
  have herase : eraseKey id sm.workerRanks = sm.workerRanks :=
    eraseKey_of_not_mem id sm.workerRanks hfresh
  have hlen1 : (register_worker id sm).workerRanks.length =
      sm.workerRanks.length + 1 := by
    rw [hwr1]
    simp [insertKey, herase]
  have hmem2 : id ∈ (register_worker id sm).ringNodes := by
    unfold register_worker
    exact mem_ringNodes_add_node id _
  have hnoop : add_node id
      { register_worker id sm with
          workerRanks := insertKey id
            ((register_worker id sm).workerRanks.length % 4294967296)
            (register_worker id sm).workerRanks,
          activeWorkers :=
            if id ∈ (register_worker id sm).activeWorkers then
              (register_worker id sm).activeWorkers
            else id :: (register_worker id sm).activeWorkers } =
      { register_worker id sm with
          workerRanks := insertKey id
            ((register_worker id sm).workerRanks.length % 4294967296)
            (register_worker id sm).workerRanks,
          activeWorkers :=
            if id ∈ (register_worker id sm).activeWorkers then
              (register_worker id sm).activeWorkers
            else id :: (register_worker id sm).activeWorkers } :=
    add_node_mem_noop id _ hmem2
  have hreg2 : register_worker id (register_worker id sm) =
      { register_worker id sm with
          workerRanks := insertKey id
            ((register_worker id sm).workerRanks.length % 4294967296)
            (register_worker id sm).workerRanks,
          activeWorkers :=
            if id ∈ (register_worker id sm).activeWorkers then
              (register_worker id sm).activeWorkers
            else id :: (register_worker id sm).activeWorkers } := by
    conv_lhs => unfold register_worker
    exact hnoop
  have hmod2 : (register_worker id sm).workerRanks.length % 4294967296 =
      sm.workerRanks.length + 1 := by
    rw [hlen1]
    exact Nat.mod_eq_of_lt hlen
  refine ⟨?_, ?_, ?_, ?_, ?_⟩
  · rw [hreg2]
  · rw [hreg2]
  · rw [hreg2]
    simp only [insertKey, keysOf, List.map_cons, List.count_cons_self]
    have := count_keysOf_eraseKey id (register_worker id sm).workerRanks
    simp only [keysOf] at this ⊢
    omega
  · rw [hwr1]
    exact lookupKey_insertKey_self id _ _
  · rw [hreg2]
    simp only
    rw [hmod2]
    exact lookupKey_insertKey_self id _ _

/-- Witness for C7 (amended) at the empty shard manager and id `"a"`. -/
theorem register_worker_double_add_witness :
    ("a" ∉ keysOf ShardManager.empty.workerRanks ∧
        ShardManager.empty.workerRanks.length + 1 < 4294967296) ∧
      ((register_worker "a" (register_worker "a" ShardManager.empty)).ringEntries =
          (register_worker "a" ShardManager.empty).ringEntries ∧
        (register_worker "a" (register_worker "a" ShardManager.empty)).ringNodes =
          (register_worker "a" ShardManager.empty).ringNodes ∧
        (keysOf (register_worker "a"
          (register_worker "a" ShardManager.empty)).workerRanks).count "a" = 1 ∧
        lookupKey "a" (register_worker "a" ShardManager.empty).workerRanks =
          some ShardManager.empty.workerRanks.length ∧
        lookupKey "a" (register_worker "a"
          (register_worker "a" ShardManager.empty)).workerRanks =
          some (ShardManager.empty.workerRanks.length + 1)) :=
  ⟨⟨by decide, by decide⟩,
    register_worker_double_add ShardManager.empty "a" (by decide) (by decide)⟩

/-! ### Retention theorems -/

theorem cleanup_eq (keep : Nat) :
    ∀ l : List (Nat × CheckpointMetadata),
      cleanup_old_checkpoints keep l =
        (l.drop (l.length - keep), (l.take (l.length - keep)).map (fun e => e.2.path)) := by
  intro l
  induction l with
  | nil => simp [cleanup_old_checkpoints]
  | cons p rest ih =>
    obtain ⟨s, m⟩ := p
    by_cases h : keep < rest.length + 1
    · have hd : ((s, m) :: rest).length - keep = (rest.length - keep) + 1 := by
        simp only [List.length_cons]
        omega
      simp only [cleanup_old_checkpoints, if_pos h, ih, hd, List.drop_succ_cons,
        List.take_succ_cons, List.map_cons]
    · have hd : ((s, m) :: rest).length - keep = 0 := by
        simp only [List.length_cons]
        omega
      simp only [cleanup_old_checkpoints, if_neg h, hd, List.drop_zero,
        List.take_zero, List.map_nil]

theorem mem_insertStep (s : Nat) (m : CheckpointMetadata) :
    ∀ (l : List (Nat × CheckpointMetadata)) (x : Nat × CheckpointMetadata),
      x ∈ insertStep s m l → x = (s, m) ∨ x ∈ l := by
  intro l
  induction l with
  | nil => intro x hx; simpa [insertStep] using hx
  | cons p rest ih =>
    intro x hx
    obtain ⟨s', m'⟩ := p
    simp only [insertStep] at hx
    by_cases h1 : s < s'
    · rw [if_pos h1] at hx
      rcases List.mem_cons.mp hx with hx | hx
      · left; exact hx
      · right; exact hx
    · rw [if_neg h1] at hx
      by_cases h2 : s = s'
      · rw [if_pos h2] at hx
        rcases List.mem_cons.mp hx with hx | hx
        · left; exact hx
        · right; exact List.mem_cons_of_mem _ hx
      · rw [if_neg h2] at hx
        rcases List.mem_cons.mp hx with hx | hx
        · right; simp [hx]
        · rcases ih x hx with h | h
          · left; exact h
          · right; exact List.mem_cons_of_mem _ h

theorem insertStep_sorted (s : Nat) (m : CheckpointMetadata) :
    ∀ l : List (Nat × CheckpointMetadata),
      stepSorted l → stepSorted (insertStep s m l) := by
  intro l
  induction l with
  | nil => intro _; simp [insertStep, stepSorted]
  | cons p rest ih =>
    intro hl
    obtain ⟨s', m'⟩ := p
    rw [stepSorted, List.pairwise_cons] at hl
    obtain ⟨hhead, hrest⟩ := hl
    simp only [insertStep]
    by_cases h1 : s < s'
    · rw [if_pos h1]
      rw [stepSorted, List.pairwise_cons]
      refine ⟨?_, ?_⟩
      · intro x hx
        rcases List.mem_cons.mp hx with hx | hx
        · subst hx; exact h1
        · exact lt_trans h1 (hhead x hx)
      · rw [stepSorted] at *
        exact List.Pairwise.cons hhead hrest
    · rw [if_neg h1]
      by_cases h2 : s = s'
      · rw [if_pos h2]
        rw [stepSorted, List.pairwise_cons]
        subst h2
        exact ⟨hhead, hrest⟩
      · rw [if_neg h2]
        rw [stepSorted, List.pairwise_cons]
        refine ⟨?_, ih hrest⟩
        intro x hx
        rcases mem_insertStep s m rest x hx with hx | hx
        · subst hx; omega
        · exact hhead x hx

/-- **C4.** After an insertion into the step-indexed map (external
registration shown explicitly; the writer-completion path runs the same
insert-then-cleanup), while the map holds more than `keepCount` entries
the smallest-step entry is removed and a delete of its path is issued:
the surviving map is the insertion result minus its
`(size − keepCount)`-entry prefix, the deleted paths are exactly that
prefix's paths, every removed step is ≤ every surviving step, and the
resulting size never exceeds `keepCount`. -/
theorem checkpoint_retention (keep : Nat) (cid : String) (s e : Nat)
    (p : String) (sz : Nat) (md : List (String × String))
    (cks : List (Nat × CheckpointMetadata)) (hs : stepSorted cks) :
    (register_external_checkpoint keep cid s e p sz md cks).1 =
        (insertStep s (external_checkpoint_metadata cid s e p sz md) cks).drop
          ((insertStep s (external_checkpoint_metadata cid s e p sz md) cks).length - keep) ∧
      (register_external_checkpoint keep cid s e p sz md cks).2 =
        ((insertStep s (external_checkpoint_metadata cid s e p sz md) cks).take
          ((insertStep s (external_checkpoint_metadata cid s e p sz md) cks).length - keep)).map
          (fun x => x.2.path) ∧
      (register_external_checkpoint keep cid s e p sz md cks).1.length ≤ keep ∧
      (∀ x ∈ (insertStep s (external_checkpoint_metadata cid s e p sz md) cks).take
          ((insertStep s (external_checkpoint_metadata cid s e p sz md) cks).length - keep),
        ∀ y ∈ (register_external_checkpoint keep cid s e p sz md cks).1, x.1 ≤ y.1) ∧
      (∀ (bp : String) (pending : List (String × PendingCheckpoint))
          (cks₂ : List (Nat × CheckpointMetadata)) (cid₂ : String) (sz₂ : Nat)
          (entry : PendingCheckpoint),
        lookupKey cid₂ pending = some entry →
          (handle_completed keep bp pending cks₂ cid₂ sz₂).2.1.length ≤ keep) := by
  have hmain := cleanup_eq keep (insertStep s (external_checkpoint_metadata cid s e p sz md) cks)
  have hreg : register_external_checkpoint keep cid s e p sz md cks =
      cleanup_old_checkpoints keep
        (insertStep s (external_checkpoint_metadata cid s e p sz md) cks) := rfl
  have hsorted : stepSorted (insertStep s (external_checkpoint_metadata cid s e p sz md) cks) :=
    insertStep_sorted s _ cks hs
  refine ⟨?_, ?_, ?_, ?_, ?_⟩
  · rw [hreg, hmain]
  · rw [hreg, hmain]
  · rw [hreg, hmain]
    simp only [List.length_drop]
    omega
  · intro x hx y hy
    rw [hreg, hmain] at hy
    simp only at hy
    have hsplit := List.take_append_drop
      ((insertStep s (external_checkpoint_metadata cid s e p sz md) cks).length - keep)
      (insertStep s (external_checkpoint_metadata cid s e p sz md) cks)
    have hpw : stepSorted ((insertStep s (external_checkpoint_metadata cid s e p sz md) cks).take
        ((insertStep s (external_checkpoint_metadata cid s e p sz md) cks).length - keep) ++
        (insertStep s (external_checkpoint_metadata cid s e p sz md) cks).drop
        ((insertStep s (external_checkpoint_metadata cid s e p sz md) cks).length - keep)) := by
      rw [hsplit]
      exact hsorted
    rw [stepSorted, List.pairwise_append] at hpw
    exact le_of_lt (hpw.2.2 x hx y hy)
  · intro bp pending cks₂ cid₂ sz₂ entry hlook
    unfold handle_completed
    rw [hlook]
    simp only [cleanup_eq, List.length_drop]
    omega

/-- Witness for C4: `keepCount = 1`, one existing entry at step 1,
registration at step 2. -/
theorem checkpoint_retention_witness :
    stepSorted [(1, ⟨"c1", 1, 0, "/ck/1", 4, .Full, none, []⟩)] ∧
      ((register_external_checkpoint 1 "c2" 2 0 "/ck/2" 8 []
          [(1, ⟨"c1", 1, 0, "/ck/1", 4, .Full, none, []⟩)]).1 =
        (insertStep 2 (external_checkpoint_metadata "c2" 2 0 "/ck/2" 8 [])
            [(1, ⟨"c1", 1, 0, "/ck/1", 4, .Full, none, []⟩)]).drop
          ((insertStep 2 (external_checkpoint_metadata "c2" 2 0 "/ck/2" 8 [])
            [(1, ⟨"c1", 1, 0, "/ck/1", 4, .Full, none, []⟩)]).length - 1) ∧
        (register_external_checkpoint 1 "c2" 2 0 "/ck/2" 8 []
          [(1, ⟨"c1", 1, 0, "/ck/1", 4, .Full, none, []⟩)]).2 =
        ((insertStep 2 (external_checkpoint_metadata "c2" 2 0 "/ck/2" 8 [])
            [(1, ⟨"c1", 1, 0, "/ck/1", 4, .Full, none, []⟩)]).take
          ((insertStep 2 (external_checkpoint_metadata "c2" 2 0 "/ck/2" 8 [])
            [(1, ⟨"c1", 1, 0, "/ck/1", 4, .Full, none, []⟩)]).length - 1)).map
          (fun x => x.2.path) ∧
        (register_external_checkpoint 1 "c2" 2 0 "/ck/2" 8 []
          [(1, ⟨"c1", 1, 0, "/ck/1", 4, .Full, none, []⟩)]).1.length ≤ 1 ∧
        (∀ x ∈ (insertStep 2 (external_checkpoint_metadata "c2" 2 0 "/ck/2" 8 [])
            [(1, ⟨"c1", 1, 0, "/ck/1", 4, .Full, none, []⟩)]).take
          ((insertStep 2 (external_checkpoint_metadata "c2" 2 0 "/ck/2" 8 [])
            [(1, ⟨"c1", 1, 0, "/ck/1", 4, .Full, none, []⟩)]).length - 1),
          ∀ y ∈ (register_external_checkpoint 1 "c2" 2 0 "/ck/2" 8 []
            [(1, ⟨"c1", 1, 0, "/ck/1", 4, .Full, none, []⟩)]).1, x.1 ≤ y.1) ∧
        (∀ (bp : String) (pending : List (String × PendingCheckpoint))
            (cks₂ : List (Nat × CheckpointMetadata)) (cid₂ : String) (sz₂ : Nat)
            (entry : PendingCheckpoint),
          lookupKey cid₂ pending = some entry →
            (handle_completed 1 bp pending cks₂ cid₂ sz₂).2.1.length ≤ 1)) :=
  ⟨by decide,
    checkpoint_retention 1 "c2" 2 0 "/ck/2" 8 []
      [(1, ⟨"c1", 1, 0, "/ck/1", 4, .Full, none, []⟩)] (by decide)⟩

/-! ### Shard-assignment field theorems -/

theorem mem_rrSel (φ : Nat → Nat) (r : Nat) :
    ∀ (l : List α) (k : Nat) (x : α), x ∈ rrSel φ r k l → x ∈ l := by
  intro l
  induction l with
  | nil => intro k x hx; simpa [rrSel] using hx
  | cons a l ih =>
    intro k x hx
    simp only [rrSel] at hx
    by_cases h : φ k = r
    · rw [if_pos h] at hx
      rcases List.mem_cons.mp hx with hx | hx
      · simp [hx]
      · exact List.mem_cons_of_mem _ (ih (k + 1) x hx)
    · rw [if_neg h] at hx
      exact List.mem_cons_of_mem _ (ih (k + 1) x hx)

theorem mem_get_worker_shards_lt (f : Nat → Nat) (C r W x : Nat)
    (hx : x ∈ get_worker_shards f C r W) : x < C := by
  by_cases hW : W = 0
  · subst hW; simp [get_worker_shards] at hx
  · rw [get_worker_shards_eq_rrSel f C r W hW] at hx
    have hmem := mem_rrSel _ r _ 0 x hx
    exact List.mem_range.mp ((get_shuffled_shards_perm f C).mem_iff.mp hmem)

theorem lt_of_lt_divCeil (k S Z : Nat) (hZ : 0 < Z) (hk : k < divCeil S Z) :
    k * Z < S := by
  unfold divCeil at hk
  have h1 : k + 1 ≤ (S + Z - 1) / Z := hk
  have h2 : (k + 1) * Z ≤ S + Z - 1 := (Nat.le_div_iff_mul_le hZ).mp h1
  have h3 : 1 ≤ (S + Z - 1) / Z := by omega
  have h4 : 1 * Z ≤ S + Z - 1 := (Nat.le_div_iff_mul_le hZ).mp h3
  have h5 : k * Z + Z = (k + 1) * Z := by ring
  omega

/-- **C6 (counterexample).** The shard manager's assignments carry
`file_paths = []` (the source comment says "Populated by storage layer"),
not `[D.path]`: one worker, a one-shard dataset registered with path
`"/data/d"` yields an assignment whose `filePaths` is `[]`. -/
theorem shard_file_paths_counterexample :
    get_shard_for_worker (fun _ _ _ => 0)
        (register_worker "w"
          (register_dataset ⟨"d", "/data/d", "parquet", 10, 1, 10, true, 42⟩
            ShardManager.empty)) "d" "w" 0 =
      some [⟨"d", 0, 1, 0, 10, [], 0⟩] ∧
      ([] : List String) ≠ ["/data/d"] := by
  decide

/-- **C6 (amended).** Every assignment returned by
`get_shard_for_worker` for a consistently registered dataset (shard
count `⌈S/Z⌉`, `Z > 0`, sizes below the `u64` wrap) has
`startIndex = k·Z` and `endIndex = min(S, (k+1)·Z)` for its shard id
`k`, but `filePaths = []`; the coordinator service attaches
`filePaths = [D.path]` to the single assignment `get_data_shard`
returns. -/
theorem shard_assignment_fields (rng : String → Nat → Nat → Nat)
    (sm : ShardManager) (datasetId workerId : String) (epoch : Nat)
    (meta : DatasetMetadata) (assignments : List ShardAssignment)
    (hds : lookupKey datasetId sm.datasets = some meta)
    (hC : meta.totalShards = divCeil meta.totalSamples meta.shardSize)
    (hZ : 0 < meta.shardSize)
    (hsz : meta.totalSamples + meta.shardSize ≤ 18446744073709551616)
    (hres : get_shard_for_worker rng sm datasetId workerId epoch = some assignments) :
    (∀ a ∈ assignments,
        a.startIndex = a.shardId * meta.shardSize ∧
        a.endIndex = min meta.totalSamples ((a.shardId + 1) * meta.shardSize) ∧
        a.filePaths = []) ∧
      (∀ (st : CoordinatorState) (info : DatasetInfo) (resp : ShardAssignment),
        lookupKey datasetId st.datasets = some info →
        get_data_shard rng st workerId datasetId epoch = .ok resp →
        resp.filePaths = [info.path]) := by
  constructor
  · intro a ha
    unfold get_shard_for_worker at hres
    rw [hds] at hres
    cases hrank : lookupKey workerId sm.workerRanks with
    | none => rw [hrank] at hres; cases hres
    | some workerRank =>
      rw [hrank] at hres
      simp only [] at hres
      by_cases hw : sm.activeWorkers.length = 0
      · rw [if_pos hw] at hres; cases hres
      · rw [if_neg hw] at hres
        simp only [Option.some.injEq] at hres
        subst hres
        obtain ⟨k, hk, hka⟩ := List.mem_map.mp ha
        have hkC : k < meta.totalShards := by
          by_cases hsh : meta.shuffle
          · rw [if_pos hsh] at hk
            exact mem_get_worker_shards_lt _ _ _ _ _ hk
          · rw [if_neg hsh] at hk
            unfold get_shards_for_node at hk
            exact List.mem_range.mp (List.mem_filter.mp hk).1
        have hkS : k * meta.shardSize < meta.totalSamples :=
          lt_of_lt_divCeil k _ _ hZ (hC ▸ hkC)
        have hmod1 : k * meta.shardSize % 18446744073709551616 = k * meta.shardSize :=
          Nat.mod_eq_of_lt (by omega)
        have hmod2 : (k * meta.shardSize % 18446744073709551616 + meta.shardSize) %
            18446744073709551616 = k * meta.shardSize + meta.shardSize := by
          rw [hmod1]
          exact Nat.mod_eq_of_lt (by omega)
        subst hka
        refine ⟨hmod1, ?_, rfl⟩
        simp only [hmod2]
        rw [Nat.min_comm]
        congr 1
        ring
  · intro st info resp hinfo hok
    unfold get_data_shard at hok
    rw [hinfo] at hok
    cases hsw : get_shard_for_worker rng st.sm datasetId workerId epoch with
    | none => rw [hsw] at hok; cases hok
    | some shards =>
      rw [hsw] at hok
      cases shards with
      | nil => cases hok
      | cons shard rest =>
        simp only [Except.ok.injEq] at hok
        subst hok
        rfl

/-- Witness for C6 (amended) at the one-worker, one-shard state of the
counterexample's shape (shard id 0, `Z = 10`, `S = 10`). -/
theorem shard_assignment_fields_witness :
    (lookupKey "d" (register_worker "w"
        (register_dataset ⟨"d", "/data/d", "parquet", 10, 1, 10, true, 42⟩
          ShardManager.empty)).datasets =
        some ⟨"d", "/data/d", "parquet", 10, 1, 10, true, 42⟩ ∧
      (1 : Nat) = divCeil 10 10 ∧
      (0 : Nat) < 10 ∧
      (10 : Nat) + 10 ≤ 18446744073709551616 ∧
      get_shard_for_worker (fun _ _ _ => 0)
        (register_worker "w"
          (register_dataset ⟨"d", "/data/d", "parquet", 10, 1, 10, true, 42⟩
            ShardManager.empty)) "d" "w" 0 = some [⟨"d", 0, 1, 0, 10, [], 0⟩]) ∧
      ((∀ a ∈ [(⟨"d", 0, 1, 0, 10, [], 0⟩ : ShardAssignment)],
          a.startIndex = a.shardId * 10 ∧
          a.endIndex = min 10 ((a.shardId + 1) * 10) ∧
          a.filePaths = []) ∧
        (∀ (st : CoordinatorState) (info : DatasetInfo) (resp : ShardAssignment),
          lookupKey "d" st.datasets = some info →
          get_data_shard (fun _ _ _ => 0) st "w" "d" 0 = .ok resp →
          resp.filePaths = [info.path])) :=
  ⟨⟨by decide, by decide, by decide, by decide, by decide⟩,
    shard_assignment_fields (fun _ _ _ => 0)
      (register_worker "w"
        (register_dataset ⟨"d", "/data/d", "parquet", 10, 1, 10, true, 42⟩
          ShardManager.empty)) "d" "w" 0
      ⟨"d", "/data/d", "parquet", 10, 1, 10, true, 42⟩
      [⟨"d", 0, 1, 0, 10, [], 0⟩]
      (by decide) (by decide) (by decide) (by decide) (by decide)⟩

/-! ### Rank-density theorems for the shard manager -/

theorem keysOf_eraseKey (k : String) :
    ∀ m : List (String × α),
      keysOf (eraseKey k m) = (keysOf m).filter (fun x => decide (x ≠ k)) := by
  intro m
  induction m with
  | nil => rfl
  | cons p rest ih =>
    by_cases h : p.1 = k
    · show keysOf (List.filter _ (p :: rest)) = List.filter _ (p.1 :: keysOf rest)
      rw [List.filter_cons, if_neg (by simp [h]),
        List.filter_cons, if_neg (by simp [h])]
      exact ih
    · show keysOf (List.filter _ (p :: rest)) = List.filter _ (p.1 :: keysOf rest)
      rw [List.filter_cons, if_pos (by simpa using h),
        List.filter_cons, if_pos (by simpa using h)]
      show p.1 :: keysOf (eraseKey k rest) = _
      rw [ih]

theorem nodup_keysOf_eraseKey (k : String) (m : List (String × α))
    (h : (keysOf m).Nodup) : (keysOf (eraseKey k m)).Nodup := by
  rw [keysOf_eraseKey]
  exact h.filter _

theorem length_eraseKey_le (k : String) (m : List (String × α)) :
    (eraseKey k m).length ≤ m.length :=
  List.length_filter_le _ m

theorem eraseKeys_cons_keep (k : String) (x : α) :
    ∀ (ks : List String) (m : List (String × α)), k ∉ ks →
      eraseKeys ks ((k, x) :: m) = (k, x) :: eraseKeys ks m := by
  intro ks
  induction ks with
  | nil => intro m _; rfl
  | cons k' ks' ih =>
    intro m hk
    simp only [List.mem_cons] at hk
    push_neg at hk
    show eraseKeys ks' (eraseKey k' ((k, x) :: m)) = (k, x) :: eraseKeys ks' (eraseKey k' m)
    have hstep : eraseKey k' ((k, x) :: m) = (k, x) :: eraseKey k' m := by
      show List.filter _ ((k, x) :: m) = _
      rw [List.filter_cons, if_pos (by simpa using hk.1)]
      rfl
    rw [hstep]
    exact ih (eraseKey k' m) hk.2

theorem eraseKeys_nil_of_subset :
    ∀ (ks : List String) (m : List (String × α)),
      (∀ x ∈ keysOf m, x ∈ ks) → eraseKeys ks m = [] := by
  intro ks
  induction ks with
  | nil =>
    intro m hsub
    cases m with
    | nil => rfl
    | cons p rest => exact absurd (hsub p.1 (by simp [keysOf])) (by simp)
  | cons k ks' ih =>
    intro m hsub
    show eraseKeys ks' (eraseKey k m) = []
    refine ih (eraseKey k m) ?_
    intro x hx
    rw [keysOf_eraseKey] at hx
    obtain ⟨hxm, hxk⟩ := List.mem_filter.mp hx
    rcases List.mem_cons.mp (hsub x hxm) with h | h
    · exact absurd h (by simpa using hxk)
    · exact h

theorem foldl_insertKey_enumFrom (g : Nat → β) :
    ∀ (ws : List String) (j : Nat) (m : List (String × β)), ws.Nodup →
      (List.enumFrom j ws).foldl (fun acc p => insertKey p.2 (g p.1) acc) m =
        ((List.enumFrom j ws).map (fun p => (p.2, g p.1))).reverse ++ eraseKeys ws m := by
  intro ws
  induction ws with
  | nil => intro j m _; rfl
  | cons id ws' ih =>
    intro j m hnd
    have hid : id ∉ ws' := (List.nodup_cons.mp hnd).1
    have hnd' : ws'.Nodup := (List.nodup_cons.mp hnd).2
    rw [List.enumFrom_cons]
    show (List.enumFrom (j + 1) ws').foldl _ (insertKey id (g j) m) = _
    rw [ih (j + 1) (insertKey id (g j) m) hnd']
    have h1 : eraseKeys ws' (insertKey id (g j) m) =
        (id, g j) :: eraseKeys (id :: ws') m := by
      show eraseKeys ws' ((id, g j) :: eraseKey id m) = _
      rw [eraseKeys_cons_keep id (g j) ws' (eraseKey id m) hid]
      rfl
    rw [h1]
    simp only [List.map_cons, List.reverse_cons, List.append_assoc,
      List.singleton_append]

theorem reassign_ranks_spec (wr : List (String × Nat))
    (hnd : (keysOf wr).Nodup) :
    reassign_ranks wr =
      ((List.enumFrom 0 ((keysOf wr).mergeSort (fun a b => decide (a ≤ b)))).map
        (fun p => (p.2, p.1 % 4294967296))).reverse := by
  unfold reassign_ranks
  have hperm := List.mergeSort_perm (keysOf wr) (fun a b => decide (a ≤ b))
  have hndws : ((keysOf wr).mergeSort (fun a b => decide (a ≤ b))).Nodup :=
    hperm.symm.nodup hnd
  rw [foldl_insertKey_enumFrom (fun i => i % 4294967296) _ 0 wr hndws,
    eraseKeys_nil_of_subset _ wr (fun x hx => hperm.mem_iff.mpr hx),
    List.append_nil]

theorem reassign_ranks_dense (wr : List (String × Nat))
    (hnd : (keysOf wr).Nodup) (hlen : wr.length < 4294967296) :
    (keysOf (reassign_ranks wr)).Nodup ∧
      List.Perm ((reassign_ranks wr).map Prod.snd)
        (List.range (reassign_ranks wr).length) ∧
      (reassign_ranks wr).length = wr.length := by
  have hspec := reassign_ranks_spec wr hnd
  set ws := (keysOf wr).mergeSort (fun a b => decide (a ≤ b)) with hws
  have hperm := List.mergeSort_perm (keysOf wr) (fun a b => decide (a ≤ b))
  have hwslen : ws.length = wr.length := by
    rw [hws, hperm.length_eq]
    simp [keysOf]
  have hndws : ws.Nodup := hperm.symm.nodup hnd
  have hlenr : (reassign_ranks wr).length = wr.length := by
    rw [hspec]
    simp [hwslen]
  refine ⟨?_, ?_, hlenr⟩
  · rw [hspec]
    have hkeys : keysOf (((List.enumFrom 0 ws).map
        (fun p => (p.2, p.1 % 4294967296))).reverse) = ws.reverse := by
      simp only [keysOf, List.map_reverse, List.map_map]
      congr 1
      have : ((fun p => (p.2, p.1 % 4294967296)) ∘ (fun p : Nat × String => p)) =
          (fun p : Nat × String => (p.2, p.1 % 4294967296)) := rfl
      calc (List.enumFrom 0 ws).map
            (Prod.fst ∘ fun p : Nat × String => (p.2, p.1 % 4294967296))
          = (List.enumFrom 0 ws).map Prod.snd := rfl
        _ = ws := List.enumFrom_map_snd 0 ws
    rw [hkeys]
    simpa using hndws
  · rw [hspec]
    have hvals : (((List.enumFrom 0 ws).map
        (fun p => (p.2, p.1 % 4294967296))).reverse).map Prod.snd =
        ((List.range ws.length).map (fun i => i % 4294967296)).reverse := by
      simp only [List.map_reverse, List.map_map]
      congr 1
      calc (List.enumFrom 0 ws).map
            (Prod.snd ∘ fun p : Nat × String => (p.2, p.1 % 4294967296))
          = ((List.enumFrom 0 ws).map Prod.fst).map (fun i => i % 4294967296) := by
            rw [List.map_map]; rfl
        _ = (List.range' 0 ws.length).map (fun i => i % 4294967296) := by
            rw [List.enumFrom_map_fst]
        _ = (List.range ws.length).map (fun i => i % 4294967296) := by
            rw [← List.range_eq_range']
    rw [hvals]
    have hmap : (List.range ws.length).map (fun i => i % 4294967296) =
        List.range ws.length := by
      refine List.map_congr_left ?_ |>.trans (List.map_id _)
      intro x hx
      exact Nat.mod_eq_of_lt (lt_of_lt_of_le (List.mem_range.mp hx) (by omega))
    rw [hmap]
    have hlen2 : (((List.enumFrom 0 ws).map
        (fun p => (p.2, p.1 % 4294967296))).reverse).length = ws.length := by
      simp
    rw [hlen2]
    exact (List.reverse_perm _).trans (List.Perm.refl _)

theorem register_worker_workerRanks (id : String) (sm : ShardManager) :
    (register_worker id sm).workerRanks =
      insertKey id (sm.workerRanks.length % 4294967296) sm.workerRanks := by
  unfold register_worker
  rw [add_node_workerRanks]

theorem remove_worker_workerRanks (id : String) (sm : ShardManager) :
    (remove_worker id sm).workerRanks =
      reassign_ranks (eraseKey id sm.workerRanks) := by
  unfold remove_worker
  simp only [remove_node_workerRanks]

theorem runSM_rank_invariant :
    ∀ (ops : List SMOp) (sm : ShardManager),
      freshRun sm ops = true →
      (keysOf sm.workerRanks).Nodup →
      List.Perm (sm.workerRanks.map Prod.snd) (List.range sm.workerRanks.length) →
      sm.workerRanks.length + ops.length < 4294967296 →
      (keysOf (runSM sm ops).workerRanks).Nodup ∧
        List.Perm ((runSM sm ops).workerRanks.map Prod.snd)
          (List.range (runSM sm ops).workerRanks.length) ∧
        (runSM sm ops).workerRanks.length ≤ sm.workerRanks.length + ops.length := by
  intro ops
  induction ops with
  | nil =>
    intro sm _ hnd hperm _
    exact ⟨hnd, hperm, by simp [runSM]⟩
  | cons op ops ih =>
    intro sm hf hnd hperm hlen
    cases op with
    | addWorker id =>
      simp only [freshRun, Bool.and_eq_true, decide_eq_true_eq, applySMOp] at hf
      obtain ⟨hfresh, hrest⟩ := hf
      simp only [runSM, applySMOp]
      have hmod : sm.workerRanks.length % 4294967296 = sm.workerRanks.length := by
        refine Nat.mod_eq_of_lt ?_
        simp only [List.length_cons] at hlen
        omega
      have hwr : (register_worker id sm).workerRanks =
          (id, sm.workerRanks.length) :: sm.workerRanks := by
        rw [register_worker_workerRanks, hmod]
        unfold insertKey
        rw [eraseKey_of_not_mem id sm.workerRanks hfresh]
      have hnd1 : (keysOf (register_worker id sm).workerRanks).Nodup := by
        rw [hwr]
        simp only [keysOf, List.map_cons, List.nodup_cons]
        exact ⟨by simpa [keysOf] using hfresh, hnd⟩
      have hperm1 : List.Perm ((register_worker id sm).workerRanks.map Prod.snd)
          (List.range (register_worker id sm).workerRanks.length) := by
        rw [hwr]
        simp only [List.map_cons, List.length_cons]
        rw [List.range_succ]
        refine List.Perm.trans ?_ List.perm_middle.symm
        rw [List.append_nil]
        exact hperm.cons _
      have hlen1 : (register_worker id sm).workerRanks.length =
          sm.workerRanks.length + 1 := by
        rw [hwr]; rfl
      have hbound : (register_worker id sm).workerRanks.length + ops.length <
          4294967296 := by
        rw [hlen1]
        simp only [List.length_cons] at hlen
        omega
      have hIH := ih (register_worker id sm) hrest hnd1 hperm1 hbound
      refine ⟨hIH.1, hIH.2.1, ?_⟩
      have := hIH.2.2
      rw [hlen1] at this
      simp only [List.length_cons]
      omega
    | removeWorker id =>
      simp only [freshRun, Bool.and_eq_true, applySMOp] at hf
      obtain ⟨_, hrest⟩ := hf
      simp only [runSM, applySMOp]
      have hnde : (keysOf (eraseKey id sm.workerRanks)).Nodup :=
        nodup_keysOf_eraseKey id sm.workerRanks hnd
      have hlene : (eraseKey id sm.workerRanks).length ≤ sm.workerRanks.length :=
        length_eraseKey_le id sm.workerRanks
      have hre := reassign_ranks_dense (eraseKey id sm.workerRanks) hnde
        (by simp only [List.length_cons] at hlen; omega)
      have hwr : (remove_worker id sm).workerRanks =
          reassign_ranks (eraseKey id sm.workerRanks) :=
        remove_worker_workerRanks id sm
      have hnd1 : (keysOf (remove_worker id sm).workerRanks).Nodup := by
        rw [hwr]; exact hre.1
      have hperm1 : List.Perm ((remove_worker id sm).workerRanks.map Prod.snd)
          (List.range (remove_worker id sm).workerRanks.length) := by
        rw [hwr]; exact hre.2.1
      have hlen1 : (remove_worker id sm).workerRanks.length ≤
          sm.workerRanks.length := by
        rw [hwr, hre.2.2]; exact hlene
      have hbound : (remove_worker id sm).workerRanks.length + ops.length <
          4294967296 := by
        simp only [List.length_cons] at hlen
        omega
      have hIH := ih (remove_worker id sm) hrest hnd1 hperm1 hbound
      refine ⟨hIH.1, hIH.2.1, ?_⟩
      have := hIH.2.2
      simp only [List.length_cons]
      omega

/-- **C2 (amended).** In the shard manager's rank table, for every
sequence of `addWorker` (of a not-currently-registered id) and
`removeWorker` operations applied to the initially empty manager (at
most `2^32` operations, ranks being `u32`), the ranks of the registered
workers are a dense permutation of `[0, W)` — `remove_worker` reassigns
ranks contiguously. (The worker registry itself does not renumber, see
the counterexample.) -/
theorem shard_manager_rank_density (ops : List SMOp)
    (hfresh : freshRun ShardManager.empty ops = true)
    (hlen : ops.length < 4294967296) :
    List.Perm ((runSM ShardManager.empty ops).workerRanks.map Prod.snd)
      (List.range (runSM ShardManager.empty ops).workerRanks.length) :=
  (runSM_rank_invariant ops ShardManager.empty hfresh (by simp [keysOf, ShardManager.empty])
    (by simp [ShardManager.empty]) (by simpa [ShardManager.empty] using hlen)).2.1

/-- Witness for C2 (amended): add `a`, add `b`, remove `a`. -/
theorem shard_manager_rank_density_witness :
    (freshRun ShardManager.empty
        [.addWorker "a", .addWorker "b", .removeWorker "a"] = true ∧
      ([SMOp.addWorker "a", .addWorker "b", .removeWorker "a"] : List SMOp).length <
        4294967296) ∧
      List.Perm ((runSM ShardManager.empty
          [.addWorker "a", .addWorker "b", .removeWorker "a"]).workerRanks.map Prod.snd)
        (List.range (runSM ShardManager.empty
          [.addWorker "a", .addWorker "b", .removeWorker "a"]).workerRanks.length) :=
  ⟨⟨by decide, by decide⟩,
    shard_manager_rank_density [.addWorker "a", .addWorker "b", .removeWorker "a"]
      (by decide) (by decide)⟩

end Strata
